import Mathlib

/-!
Verification of the LLVMShield obfuscation pass (`src/SimpleObfPass.cpp`).

A shallow embedding of the pass: the LLVM module is a list of global
variables plus a list of functions; each pass of `SimpleObfPass` is a Lean
function on that state.  Names are modelled as lists of characters (the
byte content of the LLVM symbol name); initializer payloads are lists of
byte values (`Nat`, each below 256 in practice).  Randomness from `rand()`
is modelled as an explicit stream `rnd : Nat → Nat` consumed at an
explicit cursor, with the source's `% 10000` applied at each draw.
-/

namespace LLVMShield

/-- Symbol names, as the character content of an LLVM name. -/
abbrev Name := List Char

/-- Linkage classes distinguished by the pass (`hasExternalLinkage`,
`hasPrivateLinkage`; everything else is `other`). -/
inductive Linkage
  | priv
  | external
  | other
deriving DecidableEq, Repr

/-- A global's initializer, as the pass observes it: either a
`ConstantDataArray` of `i8` bytes (for which `isString()` holds), or some
other constant. -/
inductive Initializer
  | cda (bytes : List Nat)
  | nonArray
deriving DecidableEq, Repr

/-- A `GlobalVariable`: name, linkage, constant flag, optional initializer. -/
structure GlobalVariable where
  name : Name
  linkage : Linkage
  isConstant : Bool
  init : Option Initializer
deriving DecidableEq, Repr

/-- Instruction operands, as far as the pass builds or inspects them. -/
inductive Operand
  | const (n : Int)
  | arg
  | reg (i : Nat)
  | globalRef (g : Name)
deriving DecidableEq, Repr

/-- Instructions, as far as the pass builds or inspects them; pre-existing
instructions of the input module are `generic`. -/
inductive Instr
  | icmpEq (a b : Operand)
  | add (a b : Operand)
  | mul (a b : Operand)
  | condBr (c : Operand) (tbb fbb : Name)
  | br (bb : Name)
  | ret (v : Operand)
  | generic (tag : Nat) (ops : List Operand)
deriving DecidableEq, Repr

/-- A basic block: a name and an ordered instruction list. -/
structure BasicBlock where
  name : Name
  instrs : List Instr
deriving DecidableEq, Repr

/-- A function: name, linkage, declared-only flag, and (if defined) its
blocks, the first being the entry block. -/
structure Func where
  name : Name
  linkage : Linkage
  isDeclaration : Bool
  blocks : List BasicBlock
deriving DecidableEq, Repr

/-- The module: ordered globals and ordered functions.  New globals and
functions are appended at the end, matching LLVM's insertion order for
`new GlobalVariable(M, ...)` and `Function::Create(..., M)`. -/
structure Module where
  globals : List GlobalVariable
  functions : List Func
deriving DecidableEq, Repr

/-- Placeholder global used as the default of positional lookups. -/
def dummyGV : GlobalVariable := ⟨[], .other, false, none⟩

/-! ## String Constant Encryptor (`obfuscateStrings` / `encryptString`) -/

/-- `XorKey & 0xFF` on a C `int`: the low byte of the two's-complement
representation, i.e. the nonnegative residue mod 256. -/
def lowByte (k : Int) : Nat := (k % 256).toNat

/-- The per-byte transformation of `encryptString`:
`originalStr[i] ^ (XorKey & 0xFF)` truncated to a byte. -/
def xorByte (k : Int) (b : Nat) : Nat := b ^^^ lowByte k

/-- `encryptString`'s payload computation: `getAsCString()` drops the
trailing null, each remaining byte is XORed with the key's low byte, and a
literal 0 byte is appended as the new terminator (`encrypted.push_back(0)`). -/
def encryptBytes (k : Int) (bytes : List Nat) : List Nat :=
  (bytes.dropLast.map (xorByte k)) ++ [0]

/-- The eligibility filter of `obfuscateStrings`: has an initializer, is
constant, linkage is not external, and the initializer is a
`ConstantDataArray` for which `isString()` holds (an `i8` array). -/
def isEligibleString (gv : GlobalVariable) : Bool :=
  gv.init.isSome && gv.isConstant && !(gv.linkage == .external) &&
    (match gv.init with
     | some (.cda _) => true
     | _ => false)

/-- `encryptString(M, GV)` for the global at position `j`: creates the new
`_enc` global (appended to the module), replaces the initializer of the
original with the encrypted payload, and appends `_obf` to its name. -/
def encryptStringAt (k : Int) (m : Module) (j : Nat) : Module :=
  let gv := m.globals.getD j dummyGV
  match gv.init with
  | some (.cda bytes) =>
      let enc := encryptBytes k bytes
      let encGV : GlobalVariable :=
        ⟨gv.name ++ "_enc".data, .priv, true, some (.cda enc)⟩
      let gv' : GlobalVariable :=
        { gv with init := some (.cda enc), name := gv.name ++ "_obf".data }
      { m with globals := (m.globals.set j gv') ++ [encGV] }
  | _ => m

/-- The positions collected into `stringGlobals` before any encryption
happens (the scan loop of `obfuscateStrings`). -/
def eligibleIdxs (m : Module) : List Nat :=
  (List.range m.globals.length).filter
    (fun i => isEligibleString (m.globals.getD i dummyGV))

/-- `obfuscateStrings`: collects the eligible globals, encrypts each of
them, bumps `strings_obf_count` once per encrypted global, and reports a
change iff the eligible set was non-empty.  Returns
(module, counter increment, changed). -/
def obfuscateStrings (k : Int) (m : Module) : Module × Nat × Bool :=
  let idxs := eligibleIdxs m
  (idxs.foldl (encryptStringAt k) m, idxs.length, !idxs.isEmpty)

/-! ## Bogus Function Synthesizer (`insertBogusFunctions`) -/

/-- The generated decoy name:
`"bogus_func_" + std::to_string(i) + "_" + std::to_string(rand() % 10000)`. -/
def bogusFuncName (i : Nat) (r : Nat) : Name :=
  "bogus_func_".data ++ (toString i).data ++ "_".data ++ (toString (r % 10000)).data

/-- The decoy body: three rounds of `Result = (Result + (j + i)) * 2`
starting from the argument, then a return of the final value. -/
def bogusBody (i : Nat) : List Instr :=
  [ .add .arg (.const (0 + (i : Int))), .mul (.reg 0) (.const 2),
    .add (.reg 1) (.const (1 + (i : Int))), .mul (.reg 2) (.const 2),
    .add (.reg 3) (.const (2 + (i : Int))), .mul (.reg 4) (.const 2),
    .ret (.reg 5) ]

/-- One synthesized decoy: private linkage, defined, one entry block. -/
def mkBogusFunc (i : Nat) (r : Nat) : Func :=
  ⟨bogusFuncName i r, .priv, false, [⟨"entry".data, bogusBody i⟩]⟩

/-- `insertBogusFunctions`: `for (int i = 0; i < BogusCount; ++i)` creates
one decoy per iteration, drawing one random value each.  A negative
`BogusCount` runs zero iterations.  Returns
(module, new random cursor, counter increment, changed). -/
def insertBogusFunctions (bogusCount : Int) (rnd : Nat → Nat) (rIdx : Nat)
    (m : Module) : Module × Nat × Nat × Bool :=
  let n := bogusCount.toNat
  let newFuncs := (List.range n).map (fun i => mkBogusFunc i (rnd (rIdx + i)))
  ({ m with functions := m.functions ++ newFuncs }, rIdx + n, n, n != 0)

/-! ## Symbol Renamer (`renamePrivateGlobals`) -/

/-- The collection filter: private linkage and the name ends neither in
`"_obf"` nor in `"_enc"`. -/
def renameEligible (gv : GlobalVariable) : Bool :=
  gv.linkage == .priv && !("_obf".data.isSuffixOf gv.name) &&
    !("_enc".data.isSuffixOf gv.name)

/-- The rename applied to one collected global: append `"_obf"`. -/
def renameGV (gv : GlobalVariable) : GlobalVariable :=
  if renameEligible gv then { gv with name := gv.name ++ "_obf".data } else gv

/-- `renamePrivateGlobals`: renames every collected global; reports a
change iff at least one global was collected. -/
def renamePrivateGlobals (m : Module) : Module × Bool :=
  ({ m with globals := m.globals.map renameGV }, m.globals.any renameEligible)

/-! ## Dead-Branch Inserter (`insertDeadConditionals`) -/

/-- The skip filter: declarations and synthesized decoys (by name prefix)
are never modified. -/
def deadCondEligible (f : Func) : Bool :=
  !f.isDeclaration && !("bogus_func_".data.isPrefixOf f.name)

/-- `getEntryBlock()`: the first block of a defined function. -/
def entryBlock (f : Func) : BasicBlock := f.blocks.headD ⟨[], []⟩

/-- The entry-block edit of `insertDeadConditionals`: an `icmp eq 0, 1`
and a conditional branch are inserted at the very start of the entry
block; a dead block jumping to the continuation block and a continuation
block are appended; the continuation block branches back to the entry
block (`ContBuilder.CreateBr(&EntryBB)`). -/
def transformEntry (f : Func) : Func :=
  match f.blocks with
  | [] => f
  | entry :: rest =>
      let newEntry : BasicBlock :=
        ⟨entry.name,
          .icmpEq (.const 0) (.const 1) ::
          .condBr (.reg 0) "dead_branch_obf".data "continue_obf".data ::
          entry.instrs⟩
      let deadBB : BasicBlock := ⟨"dead_branch_obf".data, [.br "continue_obf".data]⟩
      let contBB : BasicBlock := ⟨"continue_obf".data, [.br entry.name]⟩
      { f with blocks := newEntry :: (rest ++ [deadBB, contBB]) }

/-- The function scan of `insertDeadConditionals`: the first function that
is neither a declaration nor a decoy and has a non-empty entry block is
transformed; every other function is left alone. -/
def insertDeadFold : List Func → List Func × Bool
  | [] => ([], false)
  | f :: fs =>
      if deadCondEligible f && !(entryBlock f).instrs.isEmpty then
        (transformEntry f :: fs, true)
      else
        let r := insertDeadFold fs
        (f :: r.1, r.2)

/-- `insertDeadConditionals` at module level. -/
def insertDeadConditionals (m : Module) : Module × Bool :=
  let r := insertDeadFold m.functions
  ({ m with functions := r.1 }, r.2)

/-! ## Cycle Orchestrator (`runOnModule`) -/

/-- The configuration surface: `XorKey`, `BogusCount`, `Cycles`
(all C `int`s). -/
structure Config where
  xorKey : Int
  bogusCount : Int
  cycles : Int
deriving DecidableEq, Repr

/-- The pass's mutable state during `runOnModule`: the module, the three
statistics counters, the random cursor, and the accumulated `changed`
flag. -/
structure EngineState where
  mod : Module
  strings_obf_count : Nat
  fake_funcs_inserted : Nat
  cycles_completed : Nat
  rIdx : Nat
  changed : Bool
deriving DecidableEq, Repr

/-- One cycle of `runOnModule`: the four passes in their fixed order, then
`cycles_completed++`. -/
def runCycle (cfg : Config) (rnd : Nat → Nat) (s : EngineState) : EngineState :=
  let r1 := obfuscateStrings cfg.xorKey s.mod
  let r2 := insertBogusFunctions cfg.bogusCount rnd s.rIdx r1.1
  let r3 := renamePrivateGlobals r2.1
  let r4 := insertDeadConditionals r3.1
  { mod := r4.1,
    strings_obf_count := s.strings_obf_count + r1.2.1,
    fake_funcs_inserted := s.fake_funcs_inserted + r2.2.2.1,
    cycles_completed := s.cycles_completed + 1,
    rIdx := r2.2.1,
    changed := s.changed || r1.2.2 || r2.2.2.2 || r3.2 || r4.2 }

/-- `for (int cycle = 0; cycle < Cycles; ++cycle)`. -/
def runCycles (cfg : Config) (rnd : Nat → Nat) : Nat → EngineState → EngineState
  | 0, s => s
  | n + 1, s => runCycles cfg rnd n (runCycle cfg rnd s)

/-- `runOnModule`: runs the cycle loop from fresh counters; a
non-positive `Cycles` runs zero iterations. -/
def runOnModule (cfg : Config) (rnd : Nat → Nat) (m : Module) : EngineState :=
  runCycles cfg rnd cfg.cycles.toNat ⟨m, 0, 0, 0, 0, false⟩

/-! ## A small execution semantics for straight-line block graphs

Used to compare observable behavior before and after the dead-branch
transformation.  `execBlock` walks a block, tracking the value of the most
recent comparison; `execFun` follows branches with a fuel bound, returning
`none` when the fuel runs out (non-termination within the bound). -/

/-- Constant operand evaluation (sufficient for the blocks compared). -/
def evalOp : Operand → Int
  | .const n => n
  | _ => 0

/-- Outcome of running one block to its terminator. -/
inductive StepResult
  | retVal (v : Int)
  | jump (bb : Name)
  | stuck
deriving DecidableEq, Repr

/-- Run a block: the `Bool` is the value of the last comparison seen. -/
def execBlock : List Instr → Bool → StepResult
  | [], _ => .stuck
  | .icmpEq a b :: rest, _ => execBlock rest (evalOp a == evalOp b)
  | .condBr _ t f :: _, c => .jump (if c then t else f)
  | .br bb :: _, _ => .jump bb
  | .ret v :: _, _ => .retVal (evalOp v)
  | _ :: rest, c => execBlock rest c

/-- Look a block up by name. -/
def findBlock (f : Func) (bb : Name) : Option BasicBlock :=
  f.blocks.find? (fun b => b.name == bb)

/-- Fuel-bounded execution of a function starting at a block name. -/
def execFun (f : Func) : Nat → Name → Option Int
  | 0, _ => none
  | fuel + 1, bb =>
      match findBlock f bb with
      | none => none
      | some b =>
          match execBlock b.instrs false with
          | .retVal v => some v
          | .jump nb => execFun f fuel nb
          | .stuck => none

/-! ## Concrete modules used in the analyses -/

/-- A module with one eligible string global `"ABC"`
(payload bytes `0x41 0x42 0x43 0x00`). -/
def c1Module : Module :=
  ⟨[⟨"str".data, .priv, true, some (.cda [0x41, 0x42, 0x43, 0x00])⟩], []⟩

/-- A defined function whose entry block returns the constant 0. -/
def dbFunc : Func :=
  ⟨"main".data, .external, false, [⟨"entry".data, [.ret (.const 0)]⟩]⟩

/-- A module with only `dbFunc`. -/
def dbModule : Module := ⟨[], [dbFunc]⟩

/-- `dbFunc` after the Dead-Branch Inserter has run on `dbModule`. -/
def dbAfter : Func := (insertDeadConditionals dbModule).1.functions.headD dbFunc

/-- The empty module. -/
def emptyModule : Module := ⟨[], []⟩

/-- A module with one eligible string global `"A"` (bytes `0x41 0x00`). -/
def c4Module : Module :=
  ⟨[⟨"s".data, .priv, true, some (.cda [65, 0])⟩], []⟩

/-- A module with one external-linkage constant string global. -/
def extModule : Module :=
  ⟨[⟨"g".data, .external, true, some (.cda [65, 0])⟩], []⟩

/-- `c` copies of the `"_obf"` processing suffix. -/
def obfSuffixes : Nat → Name
  | 0 => []
  | c + 1 => "_obf".data ++ obfSuffixes c

/-! ## Helper lemmas -/

theorem encryptStringAt_length_ge (k : Int) (m : Module) (j : Nat) :
    m.globals.length ≤ (encryptStringAt k m j).globals.length := by
  simp only [encryptStringAt]
  cases hgv : (m.globals.getD j dummyGV).init with
  | none => exact le_refl _
  | some ini =>
      cases ini with
      | cda bytes => simp
      | nonArray => exact le_refl _

theorem encryptStringAt_length_cda (k : Int) (m : Module) (j : Nat) (bytes : List Nat)
    (hb : (m.globals.getD j dummyGV).init = some (.cda bytes)) :
    (encryptStringAt k m j).globals.length = m.globals.length + 1 := by
  simp only [encryptStringAt, hb]
  simp

theorem getD_set_append_self (l : List GlobalVariable) (j : Nat) (a b : GlobalVariable)
    (hj : j < l.length) : ((l.set j a) ++ [b]).getD j dummyGV = a := by
  simp only [List.getD_eq_getElem?_getD]
  rw [List.getElem?_append_left (by rw [List.length_set]; exact hj),
    List.getElem?_set_eq_of_lt _ hj]
  rfl

theorem getD_set_append_ne (l : List GlobalVariable) (i j : Nat) (a b : GlobalVariable)
    (hij : i ≠ j) (hi : i < l.length) :
    ((l.set j a) ++ [b]).getD i dummyGV = l.getD i dummyGV := by
  simp only [List.getD_eq_getElem?_getD]
  rw [List.getElem?_append_left (by rw [List.length_set]; exact hi),
    List.getElem?_set_ne (Ne.symm hij)]

theorem getD_set_append_last (l : List GlobalVariable) (j : Nat) (a b : GlobalVariable) :
    ((l.set j a) ++ [b]).getD l.length dummyGV = b := by
  simp only [List.getD_eq_getElem?_getD]
  have h : ((l.set j a) ++ [b])[l.length]? = some b := by
    rw [List.getElem?_append_right (by rw [List.length_set])]
    simp
  rw [h]
  rfl

theorem encryptStringAt_getD_ne (k : Int) (m : Module) (i j : Nat)
    (hij : i ≠ j) (hi : i < m.globals.length) :
    (encryptStringAt k m j).globals.getD i dummyGV = m.globals.getD i dummyGV := by
  simp only [encryptStringAt]
  cases hgv : (m.globals.getD j dummyGV).init with
  | none => rfl
  | some ini =>
      cases ini with
      | nonArray => rfl
      | cda bytes => exact getD_set_append_ne m.globals i j _ _ hij hi

theorem encryptStringAt_getD_self (k : Int) (m : Module) (j : Nat)
    (hj : j < m.globals.length) (bytes : List Nat)
    (hb : (m.globals.getD j dummyGV).init = some (.cda bytes)) :
    (encryptStringAt k m j).globals.getD j dummyGV
      = { m.globals.getD j dummyGV with
          init := some (.cda (encryptBytes k bytes)),
          name := (m.globals.getD j dummyGV).name ++ "_obf".data } := by
  simp only [encryptStringAt, hb]
  exact getD_set_append_self m.globals j _ _ hj

theorem foldl_encrypt_length_ge (k : Int) (js : List Nat) (m : Module) :
    m.globals.length ≤ (js.foldl (encryptStringAt k) m).globals.length := by
  induction js generalizing m with
  | nil => exact le_refl _
  | cons j js ih =>
      exact le_trans (encryptStringAt_length_ge k m j) (ih (encryptStringAt k m j))

theorem foldl_encrypt_getD_notMem (k : Int) (js : List Nat) (m : Module) (i : Nat)
    (hi : i < m.globals.length) (h : i ∉ js) :
    (js.foldl (encryptStringAt k) m).globals.getD i dummyGV
      = m.globals.getD i dummyGV := by
  induction js generalizing m with
  | nil => rfl
  | cons j js ih =>
      have hij : i ≠ j := fun hh => h (hh ▸ List.mem_cons_self j js)
      have hi' : i < (encryptStringAt k m j).globals.length :=
        lt_of_lt_of_le hi (encryptStringAt_length_ge k m j)
      rw [List.foldl_cons, ih (encryptStringAt k m j) hi' (fun hh => h (List.mem_cons_of_mem j hh)),
        encryptStringAt_getD_ne k m i j hij hi]

theorem foldl_encrypt_getD_mem (k : Int) (js : List Nat) (m : Module) (i : Nat)
    (hi : i < m.globals.length) (hnd : js.Nodup) (hmem : i ∈ js) (bytes : List Nat)
    (hb : (m.globals.getD i dummyGV).init = some (.cda bytes)) :
    (js.foldl (encryptStringAt k) m).globals.getD i dummyGV
      = { m.globals.getD i dummyGV with
          init := some (.cda (encryptBytes k bytes)),
          name := (m.globals.getD i dummyGV).name ++ "_obf".data } := by
  obtain ⟨l₁, l₂, rfl⟩ := List.append_of_mem hmem
  have hnd' := List.nodup_append.mp hnd
  have hi1 : i ∉ l₁ := fun hh => hnd'.2.2 hh (List.mem_cons_self i l₂)
  have hi2 : i ∉ l₂ := by
    have := hnd'.2.1
    rw [List.nodup_cons] at this
    exact this.1
  rw [List.foldl_append, List.foldl_cons]
  set m₁ := l₁.foldl (encryptStringAt k) m with hm₁
  have hgd1 : m₁.globals.getD i dummyGV = m.globals.getD i dummyGV :=
    foldl_encrypt_getD_notMem k l₁ m i hi hi1
  have hil1 : i < m₁.globals.length := lt_of_lt_of_le hi (foldl_encrypt_length_ge k l₁ m)
  have hb1 : (m₁.globals.getD i dummyGV).init = some (.cda bytes) := by rw [hgd1, hb]
  have hhit := encryptStringAt_getD_self k m₁ i hil1 bytes hb1
  have hil2 : i < (encryptStringAt k m₁ i).globals.length :=
    lt_of_lt_of_le hil1 (encryptStringAt_length_ge k m₁ i)
  rw [foldl_encrypt_getD_notMem k l₂ (encryptStringAt k m₁ i) i hil2 hi2, hhit, hgd1]

theorem foldl_encrypt_length_eq (k : Int) (js : List Nat) (m : Module)
    (hnd : js.Nodup)
    (hjs : ∀ j ∈ js, j < m.globals.length ∧
      ∃ bs, (m.globals.getD j dummyGV).init = some (.cda bs)) :
    (js.foldl (encryptStringAt k) m).globals.length
      = m.globals.length + js.length := by
  induction js generalizing m with
  | nil => rfl
  | cons j js ih =>
      obtain ⟨hjlt, bs, hbs⟩ := hjs j (List.mem_cons_self j js)
      have hstep := encryptStringAt_length_cda k m j bs hbs
      rw [List.nodup_cons] at hnd
      have hrest : ∀ j' ∈ js, j' < (encryptStringAt k m j).globals.length ∧
          ∃ bs', ((encryptStringAt k m j).globals.getD j' dummyGV).init
            = some (.cda bs') := by
        intro j' hj'
        obtain ⟨hj'lt, bs', hbs'⟩ := hjs j' (List.mem_cons_of_mem j hj')
        have hne : j' ≠ j := fun hh => hnd.1 (hh ▸ hj')
        refine ⟨lt_of_lt_of_le hj'lt (encryptStringAt_length_ge k m j), bs', ?_⟩
        rw [encryptStringAt_getD_ne k m j' j hne hj'lt, hbs']
      rw [List.foldl_cons, ih (encryptStringAt k m j) hnd.2 hrest, hstep]
      simp [Nat.add_comm, Nat.add_assoc, Nat.add_left_comm]

theorem eligibleIdxs_nodup (m : Module) : (eligibleIdxs m).Nodup :=
  (List.nodup_range m.globals.length).filter _

theorem mem_eligibleIdxs (m : Module) (i : Nat) :
    i ∈ eligibleIdxs m ↔
      i < m.globals.length ∧ isEligibleString (m.globals.getD i dummyGV) = true := by
  simp [eligibleIdxs, List.mem_filter, List.mem_range]

theorem isEligibleString_iff (gv : GlobalVariable) :
    isEligibleString gv = true ↔
      gv.isConstant = true ∧ (gv.linkage == Linkage.external) = false ∧
      ∃ bs, gv.init = some (.cda bs) := by
  cases hinit : gv.init with
  | none => simp [isEligibleString, hinit]
  | some ini =>
      cases ini with
      | cda bs =>
          simp [isEligibleString, hinit]
      | nonArray => simp [isEligibleString, hinit]

theorem obfuscateStrings_count (k : Int) (m : Module) :
    (obfuscateStrings k m).2.1 = (eligibleIdxs m).length := rfl

theorem obfuscateStrings_getD_eligible (k : Int) (m : Module) (i : Nat)
    (hi : i < m.globals.length)
    (hel : isEligibleString (m.globals.getD i dummyGV) = true) (bytes : List Nat)
    (hb : (m.globals.getD i dummyGV).init = some (.cda bytes)) :
    (obfuscateStrings k m).1.globals.getD i dummyGV
      = { m.globals.getD i dummyGV with
          init := some (.cda (encryptBytes k bytes)),
          name := (m.globals.getD i dummyGV).name ++ "_obf".data } ∧
    i < (obfuscateStrings k m).1.globals.length ∧
    1 ≤ (obfuscateStrings k m).2.1 := by
  have hmem : i ∈ eligibleIdxs m := (mem_eligibleIdxs m i).mpr ⟨hi, hel⟩
  refine ⟨?_, ?_, ?_⟩
  · exact foldl_encrypt_getD_mem k (eligibleIdxs m) m i hi (eligibleIdxs_nodup m) hmem bytes hb
  · exact lt_of_lt_of_le hi (foldl_encrypt_length_ge k (eligibleIdxs m) m)
  · rw [obfuscateStrings_count]
    exact List.length_pos.mpr (List.ne_nil_of_mem hmem)

theorem obfuscateStrings_getD_not_eligible (k : Int) (m : Module) (i : Nat)
    (hi : i < m.globals.length)
    (hel : isEligibleString (m.globals.getD i dummyGV) = false) :
    (obfuscateStrings k m).1.globals.getD i dummyGV = m.globals.getD i dummyGV ∧
    i < (obfuscateStrings k m).1.globals.length := by
  have hmem : i ∉ eligibleIdxs m := fun hh => by
    have h2 := ((mem_eligibleIdxs m i).mp hh).2
    rw [hel] at h2
    exact Bool.noConfusion h2
  exact ⟨foldl_encrypt_getD_notMem k (eligibleIdxs m) m i hi hmem,
    lt_of_lt_of_le hi (foldl_encrypt_length_ge k (eligibleIdxs m) m)⟩

theorem insertBogus_globals (b : Int) (rnd : Nat → Nat) (r : Nat) (m : Module) :
    (insertBogusFunctions b rnd r m).1.globals = m.globals := rfl

theorem insertDead_globals (m : Module) :
    (insertDeadConditionals m).1.globals = m.globals := rfl

theorem rename_globals (m : Module) :
    (renamePrivateGlobals m).1.globals = m.globals.map renameGV := rfl

theorem rename_getD (m : Module) (i : Nat) (hi : i < m.globals.length) :
    (renamePrivateGlobals m).1.globals.getD i dummyGV
      = renameGV (m.globals.getD i dummyGV) ∧
    i < (renamePrivateGlobals m).1.globals.length := by
  constructor
  · rw [rename_globals]
    simp only [List.getD_eq_getElem?_getD]
    rw [List.getElem?_map, List.getElem?_eq_getElem hi]
    simp [List.getElem?_eq_getElem hi]
  · rw [rename_globals, List.length_map]
    exact hi

theorem isSuffixOf_append_self (s l : Name) : l.isSuffixOf (s ++ l) = true := by
  rw [List.isSuffixOf_iff_suffix]
  exact List.suffix_append s l

theorem renameEligible_after (gv : GlobalVariable) :
    renameEligible { gv with name := gv.name ++ "_obf".data } = false := by
  simp [renameEligible, isSuffixOf_append_self]

theorem renameGV_idem (gv : GlobalVariable) : renameGV (renameGV gv) = renameGV gv := by
  by_cases h : renameEligible gv
  · have h1 : renameGV gv = { gv with name := gv.name ++ "_obf".data } := if_pos h
    have h2 : renameEligible { gv with name := gv.name ++ "_obf".data } = false :=
      renameEligible_after gv
    rw [h1]
    unfold renameGV
    rw [h2]
    simp
  · have h1 : renameGV gv = gv := if_neg h
    rw [h1, h1]

theorem map_renameGV_idem (l : List GlobalVariable) :
    (l.map renameGV).map renameGV = l.map renameGV := by
  induction l with
  | nil => rfl
  | cons gv l ih => simp [renameGV_idem, ih]

theorem encryptStringAt_functions (k : Int) (m : Module) (j : Nat) :
    (encryptStringAt k m j).functions = m.functions := by
  simp only [encryptStringAt]
  cases hgv : (m.globals.getD j dummyGV).init with
  | none => rfl
  | some ini => cases ini <;> rfl

theorem foldl_encrypt_functions (k : Int) (js : List Nat) (m : Module) :
    (js.foldl (encryptStringAt k) m).functions = m.functions := by
  induction js generalizing m with
  | nil => rfl
  | cons j js ih => rw [List.foldl_cons, ih, encryptStringAt_functions]

theorem obfuscateStrings_functions (k : Int) (m : Module) :
    (obfuscateStrings k m).1.functions = m.functions :=
  foldl_encrypt_functions k (eligibleIdxs m) m

theorem insertDeadFold_length (fs : List Func) :
    (insertDeadFold fs).1.length = fs.length := by
  induction fs with
  | nil => rfl
  | cons f fs ih =>
      simp only [insertDeadFold]
      split
      · simp
      · simp [ih]

theorem runCycle_counts (cfg : Config) (rnd : Nat → Nat) (s : EngineState) :
    (runCycle cfg rnd s).fake_funcs_inserted
      = s.fake_funcs_inserted + cfg.bogusCount.toNat ∧
    (runCycle cfg rnd s).mod.functions.length
      = s.mod.functions.length + cfg.bogusCount.toNat := by
  constructor
  · rfl
  · show (insertDeadConditionals _).1.functions.length = _
    rw [show ∀ m : Module, (insertDeadConditionals m).1.functions = (insertDeadFold m.functions).1
          from fun _ => rfl]
    rw [insertDeadFold_length]
    show ((insertBogusFunctions _ _ _ _).1.functions).length = _
    simp [insertBogusFunctions, obfuscateStrings_functions]

theorem runCycles_counts (cfg : Config) (rnd : Nat → Nat) (n : Nat) (s : EngineState) :
    (runCycles cfg rnd n s).fake_funcs_inserted
      = s.fake_funcs_inserted + n * cfg.bogusCount.toNat ∧
    (runCycles cfg rnd n s).mod.functions.length
      = s.mod.functions.length + n * cfg.bogusCount.toNat := by
  induction n generalizing s with
  | zero => simp [runCycles]
  | succ k ih =>
      have h := runCycle_counts cfg rnd s
      have h2 := ih (runCycle cfg rnd s)
      refine ⟨?_, ?_⟩
      · show (runCycles cfg rnd k (runCycle cfg rnd s)).fake_funcs_inserted = _
        rw [h2.1, h.1]; ring
      · show (runCycles cfg rnd k (runCycle cfg rnd s)).mod.functions.length = _
        rw [h2.2, h.2]; ring

theorem dbAfter_loops (fuel : Nat) :
    execFun dbAfter fuel "entry".data = none ∧
    execFun dbAfter fuel "continue_obf".data = none := by
  induction fuel with
  | zero => exact ⟨rfl, rfl⟩
  | succ n ih =>
      refine ⟨?_, ?_⟩
      · show execFun dbAfter n "continue_obf".data = none
        exact ih.2
      · show execFun dbAfter n "entry".data = none
        exact ih.1

theorem getD_map_renameGV (l : List GlobalVariable) (i : Nat) (hi : i < l.length) :
    (l.map renameGV).getD i dummyGV = renameGV (l.getD i dummyGV) := by
  simp only [List.getD_eq_getElem?_getD]
  rw [List.getElem?_map, List.getElem?_eq_getElem hi]
  simp [List.getElem?_eq_getElem hi]

theorem renameGV_of_not_priv (gv : GlobalVariable)
    (h : (gv.linkage == Linkage.priv) = false) : renameGV gv = gv := by
  have hne : renameEligible gv = false := by simp [renameEligible, h]
  exact if_neg (fun hh => Bool.noConfusion (hne.symm.trans hh))

theorem runCycle_mod_globals (cfg : Config) (rnd : Nat → Nat) (s : EngineState) :
    (runCycle cfg rnd s).mod.globals
      = (obfuscateStrings cfg.xorKey s.mod).1.globals.map renameGV := rfl

theorem runCycle_strings_count (cfg : Config) (rnd : Nat → Nat) (s : EngineState) :
    (runCycle cfg rnd s).strings_obf_count
      = s.strings_obf_count + (obfuscateStrings cfg.xorKey s.mod).2.1 := rfl

theorem runCycle_external_frame (cfg : Config) (rnd : Nat → Nat) (s : EngineState)
    (i : Nat) (hi : i < s.mod.globals.length)
    (hext : (s.mod.globals.getD i dummyGV).linkage = Linkage.external) :
    (runCycle cfg rnd s).mod.globals.getD i dummyGV = s.mod.globals.getD i dummyGV ∧
    i < (runCycle cfg rnd s).mod.globals.length := by
  have hel : isEligibleString (s.mod.globals.getD i dummyGV) = false := by
    cases h : isEligibleString (s.mod.globals.getD i dummyGV)
    · rfl
    · obtain ⟨_, hfalse, _⟩ := (isEligibleString_iff _).mp h
      rw [hext] at hfalse
      simp at hfalse
  obtain ⟨hgd, hlen⟩ := obfuscateStrings_getD_not_eligible cfg.xorKey s.mod i hi hel
  have hnp : ((s.mod.globals.getD i dummyGV).linkage == Linkage.priv) = false := by
    rw [hext]; rfl
  constructor
  · rw [runCycle_mod_globals, getD_map_renameGV _ i hlen, hgd,
      renameGV_of_not_priv _ hnp]
  · rw [runCycle_mod_globals, List.length_map]
    exact hlen

theorem runCycles_external_frame (cfg : Config) (rnd : Nat → Nat) (n : Nat)
    (s : EngineState) (i : Nat) (hi : i < s.mod.globals.length)
    (hext : (s.mod.globals.getD i dummyGV).linkage = Linkage.external) :
    (runCycles cfg rnd n s).mod.globals.getD i dummyGV = s.mod.globals.getD i dummyGV ∧
    i < (runCycles cfg rnd n s).mod.globals.length := by
  induction n generalizing s with
  | zero => exact ⟨rfl, hi⟩
  | succ c ih =>
      obtain ⟨h1, h2⟩ := runCycle_external_frame cfg rnd s i hi hext
      have hext' : ((runCycle cfg rnd s).mod.globals.getD i dummyGV).linkage
          = Linkage.external := by rw [h1]; exact hext
      obtain ⟨h3, h4⟩ := ih (runCycle cfg rnd s) h2 hext'
      refine ⟨?_, h4⟩
      show (runCycles cfg rnd c (runCycle cfg rnd s)).mod.globals.getD i dummyGV = _
      rw [h3, h1]

theorem xorByte_zero (b : Nat) : xorByte 0 b = b := by
  simp [xorByte, lowByte]

theorem map_xorByte_zero (l : List Nat) : l.map (xorByte 0) = l := by
  induction l with
  | nil => rfl
  | cons b l ih => simp [xorByte_zero, ih]

theorem encryptBytes_key_zero (bytes : List Nat) (h : bytes.getLast? = some 0) :
    encryptBytes 0 bytes = bytes := by
  unfold encryptBytes
  rw [map_xorByte_zero]
  rcases bytes.eq_nil_or_concat with rfl | ⟨l', a, rfl⟩
  · simp at h
  · rw [List.concat_eq_append] at h ⊢
    rw [List.getLast?_concat] at h
    obtain rfl : a = 0 := Option.some.inj h
    simp

theorem runCycle_eligible_track (cfg : Config) (rnd : Nat → Nat) (s : EngineState)
    (i : Nat) (bytes : List Nat)
    (hi : i < s.mod.globals.length)
    (hconst : (s.mod.globals.getD i dummyGV).isConstant = true)
    (hext : ((s.mod.globals.getD i dummyGV).linkage == Linkage.external) = false)
    (hb : (s.mod.globals.getD i dummyGV).init = some (.cda bytes)) :
    i < (runCycle cfg rnd s).mod.globals.length ∧
    (runCycle cfg rnd s).mod.globals.getD i dummyGV
      = { s.mod.globals.getD i dummyGV with
          init := some (.cda (encryptBytes cfg.xorKey bytes)),
          name := (s.mod.globals.getD i dummyGV).name ++ "_obf".data } ∧
    s.strings_obf_count + 1 ≤ (runCycle cfg rnd s).strings_obf_count := by
  have hel : isEligibleString (s.mod.globals.getD i dummyGV) = true :=
    (isEligibleString_iff _).mpr ⟨hconst, hext, bytes, hb⟩
  obtain ⟨hgd, hlen, hcnt⟩ :=
    obfuscateStrings_getD_eligible cfg.xorKey s.mod i hi hel bytes hb
  have hne : renameEligible { s.mod.globals.getD i dummyGV with
      init := some (.cda (encryptBytes cfg.xorKey bytes)),
      name := (s.mod.globals.getD i dummyGV).name ++ "_obf".data } = false :=
    renameEligible_after { s.mod.globals.getD i dummyGV with
      init := some (.cda (encryptBytes cfg.xorKey bytes)) }
  refine ⟨?_, ?_, ?_⟩
  · rw [runCycle_mod_globals, List.length_map]
    exact hlen
  · rw [runCycle_mod_globals, getD_map_renameGV _ i hlen, hgd]
    exact if_neg (fun hh => Bool.noConfusion (hne.symm.trans hh))
  · rw [runCycle_strings_count]
    exact Nat.add_le_add_left hcnt s.strings_obf_count

theorem runCycles_eligible_track (cfg : Config) (rnd : Nat → Nat) (n : Nat)
    (s : EngineState) (i : Nat) (bytes : List Nat)
    (hi : i < s.mod.globals.length)
    (hconst : (s.mod.globals.getD i dummyGV).isConstant = true)
    (hext : ((s.mod.globals.getD i dummyGV).linkage == Linkage.external) = false)
    (hb : (s.mod.globals.getD i dummyGV).init = some (.cda bytes)) :
    i < (runCycles cfg rnd n s).mod.globals.length ∧
    (runCycles cfg rnd n s).mod.globals.getD i dummyGV
      = { s.mod.globals.getD i dummyGV with
          init := some (.cda ((encryptBytes cfg.xorKey)^[n] bytes)),
          name := (s.mod.globals.getD i dummyGV).name ++ obfSuffixes n } ∧
    s.strings_obf_count + n ≤ (runCycles cfg rnd n s).strings_obf_count := by
  induction n generalizing s bytes with
  | zero =>
      refine ⟨hi, ?_, ?_⟩
      · show s.mod.globals.getD i dummyGV = _
        rw [show (encryptBytes cfg.xorKey)^[0] bytes = bytes from rfl,
          show obfSuffixes 0 = [] from rfl, List.append_nil, ← hb]
      · show s.strings_obf_count + 0 ≤ s.strings_obf_count
        omega
  | succ c ih =>
      obtain ⟨h1, h2, h3⟩ := runCycle_eligible_track cfg rnd s i bytes hi hconst hext hb
      have hconst' : ((runCycle cfg rnd s).mod.globals.getD i dummyGV).isConstant = true := by
        rw [h2]; exact hconst
      have hext' : (((runCycle cfg rnd s).mod.globals.getD i dummyGV).linkage
          == Linkage.external) = false := by rw [h2]; exact hext
      have hb' : ((runCycle cfg rnd s).mod.globals.getD i dummyGV).init
          = some (.cda (encryptBytes cfg.xorKey bytes)) := by rw [h2]
      obtain ⟨g1, g2, g3⟩ := ih (runCycle cfg rnd s) (encryptBytes cfg.xorKey bytes)
        h1 hconst' hext' hb'
      refine ⟨g1, ?_, ?_⟩
      · show (runCycles cfg rnd c (runCycle cfg rnd s)).mod.globals.getD i dummyGV = _
        rw [g2, h2]
        simp [obfSuffixes, Function.iterate_succ_apply]
      · show s.strings_obf_count + (c + 1)
          ≤ (runCycles cfg rnd c (runCycle cfg rnd s)).strings_obf_count
        omega

/-! ## Claims -/

/-- C1: the spec claims every byte of the replaced payload, including the
trailing null terminator, equals the original byte XOR the key's low byte,
so `"ABC"` with key `0xAA` should become `0xEB 0xE8 0xE9 0xAA`.  The code
XORs only the bytes before the terminator and then appends a literal 0
(`encrypted.push_back(0)`), even though its own comment says the
terminator is "also encrypted": the actual payload is
`0xEB 0xE8 0xE9 0x00`.  The rename to `str_obf` does happen. -/
theorem encryptString_leaves_null_terminator_unencrypted :
    ((obfuscateStrings 170 c1Module).1.globals.getD 0 dummyGV).init
      = some (.cda [0xEB, 0xE8, 0xE9, 0x00]) ∧
    ((obfuscateStrings 170 c1Module).1.globals.getD 0 dummyGV).name = "str_obf".data ∧
    ((obfuscateStrings 170 c1Module).1.globals.getD 0 dummyGV).init
      ≠ some (.cda [0xEB, 0xE8, 0xE9, 0xAA]) := by
  decide

/-- C2: the claim requires the continuation block to branch to the
original successor of the entry block's tail and the function's observable
behavior to be preserved.  The code instead wires the continuation block
back to the entry block (`ContBuilder.CreateBr(&EntryBB)`), exactly the
defect the spec forbids: on a function whose entry block just returns 0,
the transformed function's continuation block branches to the entry
block, and execution, which returned 0 in one step before the
transformation, no longer terminates for any fuel bound. -/
theorem deadBranch_continuation_reenters_entry_and_diverges :
    findBlock dbAfter "continue_obf".data
      = some ⟨"continue_obf".data, [.br "entry".data]⟩ ∧
    execFun dbFunc 1 "entry".data = some 0 ∧
    ∀ fuel, execFun dbAfter fuel "entry".data = none := by
  exact ⟨by decide, by decide, fun fuel => (dbAfter_loops fuel).1⟩

/-- C3 counterexample: with `cycles = 2`, `bogusCount = 1` and a random
stream that repeats the draw 5, the two synthesized decoys receive the
very same generated name `bogus_func_0_5`; no new random suffix is drawn
and nothing is retried, so the generated names are not pairwise
distinct. -/
theorem bogus_names_collide_without_retry :
    ((runOnModule ⟨170, 1, 2⟩ (fun _ => 5) emptyModule).mod.functions.map Func.name)
      = [bogusFuncName 0 5, bogusFuncName 0 5] ∧
    ¬ ((runOnModule ⟨170, 1, 2⟩ (fun _ => 5) emptyModule).mod.functions.map
        Func.name).Nodup := by
  decide

/-- C4 counterexample: with `bogusCount = -1` and `cycles = 1`, nothing is
rejected and the pipeline runs: on a module with one eligible string
global the module is mutated and the strings counter reaches 1, refuting
"no pass executes and the module is not mutated". -/
theorem negative_bogusCount_not_rejected :
    (runOnModule ⟨170, -1, 1⟩ (fun _ => 0) c4Module).mod ≠ c4Module ∧
    (runOnModule ⟨170, -1, 1⟩ (fun _ => 0) c4Module).strings_obf_count = 1 := by
  decide

/-- C5: the Symbol Renamer is idempotent: a second run on the result of a
first run leaves the module (hence the final name set) unchanged, and any
global whose name already bears the `_obf` or `_enc` suffix is excluded
from the renamer's selection. -/
theorem renamer_idempotent (m : Module) :
    (renamePrivateGlobals (renamePrivateGlobals m).1).1 = (renamePrivateGlobals m).1 ∧
    ∀ gv : GlobalVariable,
      ("_obf".data.isSuffixOf gv.name || "_enc".data.isSuffixOf gv.name) = true →
      renameEligible gv = false := by
  constructor
  · simp only [renamePrivateGlobals]
    exact congrArg (fun l => Module.mk l m.functions) (map_renameGV_idem m.globals)
  · intro gv h
    rcases Bool.or_eq_true_iff.mp h with h' | h' <;>
      simp [renameEligible, h']

/-- C5 witness: the renamer theorem applied to a concrete module with one
private unsuffixed global and to a concrete suffixed global. -/
theorem renamer_idempotent_witness :
    (renamePrivateGlobals (renamePrivateGlobals c4Module).1).1
      = (renamePrivateGlobals c4Module).1 ∧
    renameEligible ⟨"x_obf".data, .priv, true, none⟩ = false := by
  refine ⟨(renamer_idempotent c4Module).1, ?_⟩
  exact (renamer_idempotent c4Module).2 ⟨"x_obf".data, .priv, true, none⟩ (by decide)

/-- C3 (amended): each run adds exactly `C * B` new functions and the
inserted-function counter increases by exactly `C * B`; every decoy's
name is formed from its ordinal and a single random draw — the code
performs no uniqueness check and no retry, so generated names can repeat
across cycles when the random draw repeats (any disambiguation is LLVM's
automatic renaming, outside this code). -/
theorem bogus_count_conservation (cfg : Config) (rnd : Nat → Nat) (m : Module)
    (C B : Nat) (hC : cfg.cycles = (C : Int)) (hB : cfg.bogusCount = (B : Int)) :
    (runOnModule cfg rnd m).fake_funcs_inserted = C * B ∧
    (runOnModule cfg rnd m).mod.functions.length = m.functions.length + C * B ∧
    ∀ (r : Nat) (m' : Module),
      (insertBogusFunctions cfg.bogusCount rnd r m').1.functions
        = m'.functions ++ (List.range B).map (fun i => mkBogusFunc i (rnd (r + i))) := by
  have h := runCycles_counts cfg rnd cfg.cycles.toNat ⟨m, 0, 0, 0, 0, false⟩
  have hBt : cfg.bogusCount.toNat = B := by omega
  have hCt : cfg.cycles.toNat = C := by omega
  refine ⟨?_, ?_, fun r m' => ?_⟩
  · unfold runOnModule
    rw [h.1, hCt, hBt]
    show 0 + C * B = C * B
    omega
  · unfold runOnModule
    rw [h.2, hCt, hBt]
  · simp [insertBogusFunctions, hBt]

/-- C3 (amended) witness: `cycles = 3`, `bogusCount = 2` on the empty
module yields exactly 6 inserted decoys. -/
theorem bogus_count_conservation_witness :
    (runOnModule ⟨170, 2, 3⟩ (fun n => n) emptyModule).fake_funcs_inserted = 3 * 2 :=
  (bogus_count_conservation ⟨170, 2, 3⟩ (fun n => n) emptyModule 3 2
    (by decide) (by decide)).1

/-- C4 (amended): the engine performs no configuration validation and
raises no error: with `cycles = 0` the cycle loop body never runs, so no
pass executes, the module is returned unmutated and all counters are
zero; with a negative `bogusCount` the bogus loop runs zero iterations
(the counter stays 0) while the other passes still execute. -/
theorem config_not_validated (cfg : Config) (rnd : Nat → Nat) (m : Module) :
    (cfg.cycles = 0 → runOnModule cfg rnd m = ⟨m, 0, 0, 0, 0, false⟩) ∧
    (cfg.bogusCount < 0 → (runOnModule cfg rnd m).fake_funcs_inserted = 0) := by
  constructor
  · intro h
    unfold runOnModule
    rw [h]
    rfl
  · intro h
    have h1 := (runCycles_counts cfg rnd cfg.cycles.toNat ⟨m, 0, 0, 0, 0, false⟩).1
    have h2 : cfg.bogusCount.toNat = 0 := by omega
    unfold runOnModule
    rw [h1, h2]
    show 0 + cfg.cycles.toNat * 0 = 0
    omega

/-- C4 (amended) witness: with `cycles = 0` the module comes back
untouched; with `bogusCount = -5` and two cycles no decoy is counted. -/
theorem config_not_validated_witness :
    runOnModule ⟨170, -1, 0⟩ (fun _ => 0) c4Module = ⟨c4Module, 0, 0, 0, 0, false⟩ ∧
    (runOnModule ⟨170, -5, 2⟩ (fun _ => 0) c4Module).fake_funcs_inserted = 0 :=
  ⟨(config_not_validated ⟨170, -1, 0⟩ (fun _ => 0) c4Module).1 rfl,
   (config_not_validated ⟨170, -5, 2⟩ (fun _ => 0) c4Module).2 (by decide)⟩

/-- C7: the per-byte XOR transformation of `encryptString` is an
involution: applying it twice with the same key restores every byte
sequence. -/
theorem xor_encrypt_involution (s : List Nat) (k : Int) :
    (s.map (xorByte k)).map (xorByte k) = s := by
  rw [List.map_map]
  have h : xorByte k ∘ xorByte k = id := by
    funext b
    simp [xorByte, Nat.xor_assoc]
  rw [h, List.map_id]

/-- C6: no global with external linkage is ever mutated or renamed by the
pipeline, whatever the configuration and number of cycles: the global at
any position holding an external-linkage object is bit-for-bit unchanged
after the whole run; moreover the String Constant Encryptor's eligibility
filter and the Symbol Renamer's selection both exclude external-linkage
globals. -/
theorem external_globals_never_mutated (cfg : Config) (rnd : Nat → Nat) (m : Module)
    (i : Nat) (hi : i < m.globals.length)
    (hext : (m.globals.getD i dummyGV).linkage = Linkage.external) :
    (runOnModule cfg rnd m).mod.globals.getD i dummyGV = m.globals.getD i dummyGV ∧
    ∀ gv : GlobalVariable, gv.linkage = Linkage.external →
      isEligibleString gv = false ∧ renameEligible gv = false := by
  constructor
  · exact (runCycles_external_frame cfg rnd cfg.cycles.toNat
      ⟨m, 0, 0, 0, 0, false⟩ i hi hext).1
  · intro gv h
    constructor
    · cases he : isEligibleString gv
      · rfl
      · obtain ⟨_, hfalse, _⟩ := (isEligibleString_iff gv).mp he
        rw [h] at hfalse
        simp at hfalse
    · simp [renameEligible, h]

/-- C6 witness: a module with one external constant string global,
three cycles: the global is untouched, and the two filters reject a
concrete external global. -/
theorem external_globals_never_mutated_witness :
    (runOnModule ⟨170, 2, 3⟩ (fun _ => 7) extModule).mod.globals.getD 0 dummyGV
      = extModule.globals.getD 0 dummyGV ∧
    isEligibleString ⟨"g".data, .external, true, some (.cda [65, 0])⟩ = false ∧
    renameEligible ⟨"g".data, .external, true, some (.cda [65, 0])⟩ = false := by
  have h := external_globals_never_mutated ⟨170, 2, 3⟩ (fun _ => 7) extModule 0
    (by decide) (by decide)
  exact ⟨h.1, h.2 ⟨"g".data, .external, true, some (.cda [65, 0])⟩ rfl⟩

/-- C8: with key 0 the encryption is a byte-level no-op on any eligible
null-terminated string global — its payload is unchanged — yet the object
is still renamed (the `_obf` suffix is appended) and the
strings-encrypted counter is still incremented. -/
theorem key_zero_still_renames_and_counts (m : Module) (i : Nat) (bytes : List Nat)
    (hi : i < m.globals.length)
    (hel : isEligibleString (m.globals.getD i dummyGV) = true)
    (hb : (m.globals.getD i dummyGV).init = some (.cda bytes))
    (hterm : bytes.getLast? = some 0) :
    ((obfuscateStrings 0 m).1.globals.getD i dummyGV).init
      = (m.globals.getD i dummyGV).init ∧
    ((obfuscateStrings 0 m).1.globals.getD i dummyGV).name
      = (m.globals.getD i dummyGV).name ++ "_obf".data ∧
    1 ≤ (obfuscateStrings 0 m).2.1 := by
  obtain ⟨hgd, _, hcnt⟩ := obfuscateStrings_getD_eligible 0 m i hi hel bytes hb
  rw [hgd]
  refine ⟨?_, rfl, hcnt⟩
  show some (Initializer.cda (encryptBytes 0 bytes)) = _
  rw [encryptBytes_key_zero bytes hterm, hb]

/-- C8 witness: the key-0 theorem applied to the `"ABC"` module. -/
theorem key_zero_still_renames_and_counts_witness :
    ((obfuscateStrings 0 c1Module).1.globals.getD 0 dummyGV).init
      = (c1Module.globals.getD 0 dummyGV).init ∧
    ((obfuscateStrings 0 c1Module).1.globals.getD 0 dummyGV).name
      = (c1Module.globals.getD 0 dummyGV).name ++ "_obf".data ∧
    1 ≤ (obfuscateStrings 0 c1Module).2.1 :=
  key_zero_still_renames_and_counts c1Module 0 [0x41, 0x42, 0x43, 0x00]
    (by decide) (by decide) rfl (by decide)

/-- C9: the eligibility filter never consults the processed-name marker —
an encrypted-and-suffixed global is still eligible — so with
`cycles = C ≥ 2` the global at position `i` is XORed again each cycle
(its payload after the run is the C-fold iterate of the encryption), gets
another `_obf` suffix appended each cycle, and is counted again each
cycle (the strings counter reaches at least C). -/
theorem encrypted_global_remains_eligible_each_cycle (cfg : Config)
    (rnd : Nat → Nat) (m : Module) (C : Nat) (i : Nat) (bytes : List Nat)
    (hC : 2 ≤ C) (hcy : cfg.cycles = (C : Int))
    (hi : i < m.globals.length)
    (hel : isEligibleString (m.globals.getD i dummyGV) = true)
    (hb : (m.globals.getD i dummyGV).init = some (.cda bytes)) :
    isEligibleString { m.globals.getD i dummyGV with
        init := some (.cda (encryptBytes cfg.xorKey bytes)),
        name := (m.globals.getD i dummyGV).name ++ "_obf".data } = true ∧
    (runOnModule cfg rnd m).mod.globals.getD i dummyGV
      = { m.globals.getD i dummyGV with
          init := some (.cda ((encryptBytes cfg.xorKey)^[C] bytes)),
          name := (m.globals.getD i dummyGV).name ++ obfSuffixes C } ∧
    C ≤ (runOnModule cfg rnd m).strings_obf_count := by
  obtain ⟨hconst, hext, _⟩ := (isEligibleString_iff _).mp hel
  have hCt : cfg.cycles.toNat = C := by omega
  have h := runCycles_eligible_track cfg rnd cfg.cycles.toNat
    ⟨m, 0, 0, 0, 0, false⟩ i bytes hi hconst hext hb
  rw [hCt] at h
  refine ⟨?_, ?_, ?_⟩
  · exact (isEligibleString_iff _).mpr ⟨hconst, hext, _, rfl⟩
  · show (runCycles cfg rnd cfg.cycles.toNat ⟨m, 0, 0, 0, 0, false⟩).mod.globals.getD
        i dummyGV = _
    rw [hCt]
    exact h.2.1
  · show C ≤ (runCycles cfg rnd cfg.cycles.toNat ⟨m, 0, 0, 0, 0, false⟩).strings_obf_count
    rw [hCt]
    have := h.2.2
    omega

/-- C9 witness: the `"ABC"` module over two cycles with key 170. -/
theorem encrypted_global_remains_eligible_each_cycle_witness :
    isEligibleString { c1Module.globals.getD 0 dummyGV with
        init := some (.cda (encryptBytes 170 [0x41, 0x42, 0x43, 0x00])),
        name := (c1Module.globals.getD 0 dummyGV).name ++ "_obf".data } = true ∧
    (runOnModule ⟨170, 1, 2⟩ (fun _ => 9) c1Module).mod.globals.getD 0 dummyGV
      = { c1Module.globals.getD 0 dummyGV with
          init := some (.cda ((encryptBytes 170)^[2] [0x41, 0x42, 0x43, 0x00])),
          name := (c1Module.globals.getD 0 dummyGV).name ++ obfSuffixes 2 } ∧
    2 ≤ (runOnModule ⟨170, 1, 2⟩ (fun _ => 9) c1Module).strings_obf_count :=
  encrypted_global_remains_eligible_each_cycle ⟨170, 1, 2⟩ (fun _ => 9) c1Module 2 0
    [0x41, 0x42, 0x43, 0x00] (by decide) (by decide) (by decide) (by decide) rfl

/-- C10: for every global it encrypts, `encryptString` additionally
inserts a brand-new private constant global, named with that global's
current name plus the `_enc` suffix and initialized with the encrypted
bytes, into the module; the encryptor pass leaves the function list (and
hence every instruction) untouched, so nothing references the new global,
and the module's global count grows by exactly one per encrypted
string. -/
theorem enc_copy_inserted_per_encrypted_global (k : Int) (m : Module) (i : Nat)
    (hi : i < m.globals.length)
    (hel : isEligibleString (m.globals.getD i dummyGV) = true)
    (bytes : List Nat)
    (hb : (m.globals.getD i dummyGV).init = some (.cda bytes)) :
    (⟨(m.globals.getD i dummyGV).name ++ "_enc".data, Linkage.priv, true,
        some (.cda (encryptBytes k bytes))⟩ : GlobalVariable)
      ∈ (obfuscateStrings k m).1.globals ∧
    (obfuscateStrings k m).1.globals.length
      = m.globals.length + (obfuscateStrings k m).2.1 ∧
    (obfuscateStrings k m).1.functions = m.functions := by
  have hmem : i ∈ eligibleIdxs m := (mem_eligibleIdxs m i).mpr ⟨hi, hel⟩
  obtain ⟨l₁, l₂, hsplit⟩ := List.append_of_mem hmem
  set m₁ := l₁.foldl (encryptStringAt k) m with hm₁
  have hnd' := List.nodup_append.mp (hsplit ▸ eligibleIdxs_nodup m)
  have hi1 : i ∉ l₁ := fun hh => hnd'.2.2 hh (List.mem_cons_self i l₂)
  have hgd1 : m₁.globals.getD i dummyGV = m.globals.getD i dummyGV :=
    foldl_encrypt_getD_notMem k l₁ m i hi hi1
  have hb1 : (m₁.globals.getD i dummyGV).init = some (.cda bytes) := by rw [hgd1, hb]
  have hp : m.globals.length ≤ m₁.globals.length := foldl_encrypt_length_ge k l₁ m
  have hlt : m₁.globals.length < (encryptStringAt k m₁ i).globals.length := by
    rw [encryptStringAt_length_cda k m₁ i bytes hb1]
    omega
  have hstep : (encryptStringAt k m₁ i).globals.getD m₁.globals.length dummyGV
      = ⟨(m.globals.getD i dummyGV).name ++ "_enc".data, Linkage.priv, true,
          some (.cda (encryptBytes k bytes))⟩ := by
    simp only [encryptStringAt, hb1]
    rw [getD_set_append_last, hgd1]
  have hnotmem : m₁.globals.length ∉ l₂ := by
    intro hh
    have hmem2 : m₁.globals.length ∈ eligibleIdxs m := by
      rw [hsplit]
      exact List.mem_append_right l₁ (List.mem_cons_of_mem i hh)
    have := ((mem_eligibleIdxs m _).mp hmem2).1
    omega
  have hfold : (obfuscateStrings k m).1
      = l₂.foldl (encryptStringAt k) (encryptStringAt k m₁ i) := by
    show (eligibleIdxs m).foldl (encryptStringAt k) m = _
    rw [hsplit, List.foldl_append, List.foldl_cons]
  have hfinal : (obfuscateStrings k m).1.globals.getD m₁.globals.length dummyGV
      = ⟨(m.globals.getD i dummyGV).name ++ "_enc".data, Linkage.priv, true,
          some (.cda (encryptBytes k bytes))⟩ := by
    rw [hfold, foldl_encrypt_getD_notMem k l₂ _ _ hlt hnotmem, hstep]
  have hlen2 : m₁.globals.length < (obfuscateStrings k m).1.globals.length := by
    rw [hfold]
    exact lt_of_lt_of_le hlt (foldl_encrypt_length_ge k l₂ _)
  refine ⟨?_, ?_, obfuscateStrings_functions k m⟩
  · rw [← hfinal]
    simp only [List.getD_eq_getElem?_getD, List.getElem?_eq_getElem hlen2,
      Option.getD_some]
    exact List.getElem_mem hlen2
  · rw [obfuscateStrings_count]
    show ((eligibleIdxs m).foldl (encryptStringAt k) m).globals.length = _
    refine foldl_encrypt_length_eq k (eligibleIdxs m) m (eligibleIdxs_nodup m) ?_
    intro j hj
    obtain ⟨hjlt, hjel⟩ := (mem_eligibleIdxs m j).mp hj
    obtain ⟨_, _, bs, hbs⟩ := (isEligibleString_iff _).mp hjel
    exact ⟨hjlt, bs, hbs⟩

/-- C10 witness: encrypting the `"ABC"` module with key 170 adds the
`str_enc` copy, grows the global count by one, and leaves functions
unchanged. -/
theorem enc_copy_inserted_per_encrypted_global_witness :
    (⟨(c1Module.globals.getD 0 dummyGV).name ++ "_enc".data, Linkage.priv, true,
        some (.cda (encryptBytes 170 [0x41, 0x42, 0x43, 0x00]))⟩ : GlobalVariable)
      ∈ (obfuscateStrings 170 c1Module).1.globals ∧
    (obfuscateStrings 170 c1Module).1.globals.length
      = c1Module.globals.length + (obfuscateStrings 170 c1Module).2.1 ∧
    (obfuscateStrings 170 c1Module).1.functions = c1Module.functions :=
  enc_copy_inserted_per_encrypted_global 170 c1Module 0 (by decide) (by decide)
    [0x41, 0x42, 0x43, 0x00] rfl

end LLVMShield
